import Mathlib

/-!
Verification of the aggregation and coalescing core of `toggl_to_txt.py`.

Durations are modelled in whole seconds as `Nat` (the program builds them from
`H:MM:SS` text via `timedelta`, and all aggregation sums whole seconds; the
data model declares durations non-negative).  Strings are Lean `String`.
Fallible operations (exceptions in the source) return `Option`.
-/

/-- One tracked interval, as produced by `load_entries` in toggl_to_txt.py
(lines 37-47): date, project label, free-text description, display-only
start and end times, and the duration in whole seconds.  The source field
named `end` is written `«end»` because `end` is a Lean keyword. -/
structure Entry where
  date : String
  project : String
  desc : String
  start : String
  «end» : String
  duration : Nat
deriving DecidableEq

/-- Helper for substring containment: does `hay` begin with `needle`? -/
def listStartsWith : List Char → List Char → Bool
  | [], _ => true
  | _ :: _, [] => false
  | a :: as, b :: bs => a == b && listStartsWith as bs

/-- Helper: does `needle` occur contiguously anywhere in the list?  Matches
the semantics of the Python expression `needle in hay` on strings (the empty
needle occurs in every string). -/
def listHasSub (needle : List Char) : List Char → Bool
  | [] => needle.isEmpty
  | b :: bs => listStartsWith needle (b :: bs) || listHasSub needle bs

/-- Python substring containment `needle in hay` for strings. -/
def pyIn (needle hay : String) : Bool :=
  listHasSub needle.data hay.data

/-- Translation of `merge_descriptions` (toggl_to_txt.py lines 64-69).
Python truthiness of a string is non-emptiness, and `not in` is negated
substring containment. -/
def merge_descriptions (current_desc new_desc : String) : String :=
  if current_desc = "" ∧ new_desc ≠ "" then new_desc
  else if new_desc ≠ "" ∧ pyIn new_desc current_desc = false then
    current_desc ++ "; " ++ new_desc
  else current_desc

/-- Extension of the running block by one same-project entry, the three
assignments of toggl_to_txt.py lines 80-82: `end` is replaced by the new
entry's `end`, the durations add, and the descriptions merge. -/
def mergeEntry (current e : Entry) : Entry :=
  { current with
    «end» := e.«end»,
    duration := current.duration + e.duration,
    desc := merge_descriptions current.desc e.desc }

/-- Loop body of `coalesce_consecutive` (toggl_to_txt.py lines 75-87):
`current` is the running block; each next entry either extends it (same
project) or flushes it and becomes the new current block.  The final block is
always emitted. -/
def coalesce_go (current : Entry) : List Entry → List Entry
  | [] => [current]
  | e :: rest =>
    if e.project = current.project then
      coalesce_go (mergeEntry current e) rest
    else
      current :: coalesce_go e rest

/-- Translation of `coalesce_consecutive` (toggl_to_txt.py lines 71-88):
empty input gives empty output, otherwise the first entry seeds the running
block. -/
def coalesce_consecutive : List Entry → List Entry
  | [] => []
  | e :: rest => coalesce_go e rest

/-- Translation of `sum_durations` (toggl_to_txt.py lines 49-50): a left fold
of `+` over the durations starting from the zero duration. -/
def sum_durations (entries : List Entry) : Nat :=
  entries.foldl (fun acc e => acc + e.duration) 0

/-- One update step of the `defaultdict(timedelta)` accumulation in
`group_by_project`: add `d` to the total of key `p`, appending a fresh
`(p, d)` binding at the back when `p` is unseen (Python dicts keep keys in
insertion order, so the association list order is first-encounter order). -/
def bumpKey : List (String × Nat) → String → Nat → List (String × Nat)
  | [], p, d => [(p, d)]
  | (q, t) :: rest, p, d =>
    if q = p then (q, t + d) :: rest else (q, t) :: bumpKey rest p d

/-- Translation of `group_by_project` (toggl_to_txt.py lines 52-56): fold the
entries into an insertion-ordered association list of per-project totals. -/
def group_by_project (entries : List Entry) : List (String × Nat) :=
  entries.foldl (fun acc e => bumpKey acc e.project e.duration) []

/-- Stable insertion used to model Python `sorted(..., key=duration,
reverse=True)`: a pair is placed before the first element whose duration is
at most its own, so larger durations come first and an inserted element goes
before equal-duration elements inserted earlier (which entered the fold later,
see `rankStats`). -/
def insertRanked (x : String × Nat) : List (String × Nat) → List (String × Nat)
  | [] => [x]
  | y :: ys => if y.2 ≤ x.2 then x :: y :: ys else y :: insertRanked x ys

/-- Stable sort by duration descending, modelling the `sorted` call of
`compute_stats` (line 61).  A right fold of `insertRanked` inserts earlier
list elements last, so elements with equal durations keep their original
relative order, exactly as the stable Python sort does with `reverse=True`. -/
def rankStats (l : List (String × Nat)) : List (String × Nat) :=
  l.foldr insertRanked []

/-- Translation of `compute_stats` (toggl_to_txt.py lines 58-62): the grand
total plus the per-project totals sorted by duration descending. -/
def compute_stats (entries : List Entry) : Nat × List (String × Nat) :=
  (sum_durations entries, rankStats (group_by_project entries))

/-- Translation of `fmt_dur` (toggl_to_txt.py lines 17-20): whole hours and
leftover whole minutes; the hour part is printed only when non-zero (Python
truthiness of an int). -/
def fmt_dur (totalSec : Nat) : String :=
  let h := totalSec / 3600
  let m := totalSec % 3600 / 60
  if h ≠ 0 then toString h ++ "h " ++ toString m ++ "m" else toString m ++ "m"

/-- Python `" ".join` on a list of strings. -/
def joinSpace : List String → String
  | [] => ""
  | [s] => s
  | s :: s2 :: rest => s ++ " " ++ joinSpace (s2 :: rest)

/-- Translation of `fmt_dur_long` (toggl_to_txt.py lines 22-26): `td.days`
and `td.seconds` of a non-negative `timedelta` are the whole days and the
leftover seconds below one day; only non-zero day/hour/minute components are
kept, and the join of an empty selection (falsy `""`) is replaced by
`"0m"`. -/
def fmt_dur_long (totalSec : Nat) : String :=
  let d := totalSec / 86400
  let s := totalSec % 86400
  let h := s / 3600
  let m := s % 3600 / 60
  let shown :=
    (([(d, "d"), (h, "h"), (m, "m")].filter (fun p => decide (p.1 ≠ 0))).map
      (fun p => toString p.1 ++ p.2))
  if shown = [] then "0m" else joinSpace shown

/-- Python `text.split(":")` on the character list of a string: split on every
colon, keeping empty pieces, with `[""]` for the empty string. -/
def splitOnColon : List Char → List (List Char)
  | [] => [[]]
  | c :: cs =>
    if c = ':' then [] :: splitOnColon cs
    else
      match splitOnColon cs with
      | [] => [[c]]
      | r :: rs => (c :: r) :: rs

/-- Digit-string to number: the value of a non-empty all-digit character list,
`none` otherwise. -/
def digitsToNat? (cs : List Char) : Option Nat :=
  if cs ≠ [] ∧ cs.all (fun c => c.isDigit) then
    some (cs.foldl (fun a c => a * 10 + (c.toNat - 48)) 0)
  else none

/-- Fragment of Python `int(text)` on one component: an optional ASCII sign
followed by ASCII digits.  The builtin additionally tolerates surrounding
whitespace, digit-group underscores, and non-ASCII decimal digits, all of
which involve characters outside `plainChar`; on strings of `plainChar`
characters the builtin accepts exactly this fragment, so there (and only
there) `none` coincides with a Python `ValueError`.  Crucially, a leading `-`
is accepted and yields a negative value, exactly as the builtin does. -/
def parseInt? : List Char → Option Int
  | '-' :: rest => (digitsToNat? rest).map (fun n => -(n : Int))
  | '+' :: rest => (digitsToNat? rest).map (fun n => (n : Int))
  | s => (digitsToNat? s).map (fun n => (n : Int))

/-- Printable non-space ASCII other than the underscore.  On strings of such
characters Python `int` accepts exactly an optional sign followed by ASCII
digits, which is the `parseInt?` fragment; every extra liberty of the builtin
(surrounding whitespace, digit-group underscores, non-ASCII decimal digits)
requires a character outside this set. -/
def plainChar (c : Char) : Bool :=
  32 < c.toNat && c.toNat < 127 && !(c == '_')

/-- Translation of `parse_duration` (toggl_to_txt.py lines 10-12): split on
colons, convert every component with `int`, and require exactly three
components for the tuple unpacking to succeed; `none` models the `ValueError`
escaping from `int` or from the unpacking.  The resulting duration is
`h*3600 + m*60 + s` seconds, an `Int` because components may be negative. -/
def parse_duration (s : String) : Option Int :=
  match (splitOnColon s.data).map parseInt? with
  | [some h, some m, some sec] => some (h * 3600 + m * 60 + sec)
  | _ => none

/-- Modelled from the spec: the input shape the spec says `parse_duration`
accepts, namely "exactly three colon-separated non-negative integers", each
written as a digit sequence. -/
def specNonNegTriple (s : String) : Bool :=
  match (splitOnColon s.data).map digitsToNat? with
  | [some _, some _, some _] => true
  | _ => false

/-- Translation of `calculate_percentage` (toggl_to_txt.py lines 105-106)
over exact rationals (the spec treats the float result as a real number and
defers rounding to display): `none` models the `ZeroDivisionError` raised
exactly when the total is zero seconds. -/
def calculate_percentage (part total : Nat) : Option ℚ :=
  if total = 0 then none
  else some ((part : ℚ) / (total : ℚ) * 100)

/-- Translation of `average_per_day` (toggl_to_txt.py lines 187-189) over
exact rationals (`timedelta` division rounds the exact quotient to whole
microseconds; the sub-second rounding is not modelled): the number of distinct
dates is the size of the Python `set` of date strings, and a zero count
short-circuits to the zero duration. -/
def average_per_day (total : ℚ) (entries : List Entry) : ℚ :=
  let unique_days := ((entries.map (fun e => e.date)).dedup).length
  if 0 < unique_days then total / (unique_days : ℚ) else 0

/-! ## Concrete example entries from the specification -/

/-- First example entry of the spec: project A, 09:00-10:00, "task1". -/
def entryA1 : Entry :=
  { date := "2025-03-27", project := "A", desc := "task1",
    start := "09:00", «end» := "10:00", duration := 3600 }

/-- Second example entry of the spec: project A, 10:00-11:00, "task2". -/
def entryA2 : Entry :=
  { date := "2025-03-27", project := "A", desc := "task2",
    start := "10:00", «end» := "11:00", duration := 3600 }

/-- Third example entry of the spec: project B, 11:00-12:00, empty
description. -/
def entryB : Entry :=
  { date := "2025-03-27", project := "B", desc := "",
    start := "11:00", «end» := "12:00", duration := 3600 }

/-- The coalesced work block the spec expects from the two A entries:
09:00-11:00, duration two hours, description "task1; task2". -/
def blockA : Entry :=
  { date := "2025-03-27", project := "A", desc := "task1; task2",
    start := "09:00", «end» := "11:00", duration := 7200 }

/-- Projects in order of first encounter, the key order of an
insertion-ordered Python dict: `seen` holds keys already emitted. -/
def firstOcc (seen : List String) : List String → List String
  | [] => []
  | p :: ps =>
    if p ∈ seen then firstOcc seen ps else p :: firstOcc (p :: seen) ps

/-- Index of the first occurrence of `p` in a list of strings (list length
when absent), used to express first-encounter order. -/
def sIdx (l : List String) (p : String) : Nat :=
  l.findIdx (fun q => q == p)

/-- First-match association lookup on the per-project totals list. -/
def lookupVal : List (String × Nat) → String → Option Nat
  | [], _ => none
  | (q, t) :: rest, p => if q = p then some t else lookupVal rest p

/-- Total duration that entries of project `p` contribute. -/
def projSum (p : String) (es : List Entry) : Nat :=
  sum_durations (es.filter (fun e => e.project == p))

/-! ## General lemmas about the embedded operations -/

theorem str_empty_iff (s : String) : s = "" ↔ s.data = [] := by
  cases s with
  | mk l =>
    constructor
    · intro h
      rw [h]
    · intro h
      simp only at h
      rw [h]

theorem sum_durations_shift (l : List Entry) :
    ∀ a : Nat, l.foldl (fun acc e => acc + e.duration) a
      = a + l.foldl (fun acc e => acc + e.duration) 0 := by
  induction l with
  | nil => intro a; simp
  | cons e l ih =>
    intro a
    simp only [List.foldl_cons]
    rw [ih (a + e.duration), ih (0 + e.duration)]
    omega

theorem sum_durations_cons (e : Entry) (l : List Entry) :
    sum_durations (e :: l) = e.duration + sum_durations l := by
  simp only [sum_durations, List.foldl_cons]
  rw [sum_durations_shift]
  omega

theorem coalesce_go_sum (es : List Entry) :
    ∀ c : Entry, sum_durations (coalesce_go c es)
      = c.duration + sum_durations es := by
  induction es with
  | nil =>
    intro c
    simp [coalesce_go, sum_durations_cons, sum_durations]
  | cons e es ih =>
    intro c
    rw [coalesce_go]
    by_cases h : e.project = c.project
    · rw [if_pos h, ih]
      show c.duration + e.duration + sum_durations es = _
      rw [sum_durations_cons]
      omega
    · rw [if_neg h, sum_durations_cons, ih, sum_durations_cons]

theorem coalesce_go_head (es : List Entry) :
    ∀ c : Entry, ∃ b l, coalesce_go c es = b :: l ∧ b.project = c.project := by
  induction es with
  | nil => intro c; exact ⟨c, [], rfl, rfl⟩
  | cons e es ih =>
    intro c
    rw [coalesce_go]
    by_cases h : e.project = c.project
    · rw [if_pos h]
      obtain ⟨b, l, hb, hp⟩ := ih (mergeEntry c e)
      exact ⟨b, l, hb, hp⟩
    · rw [if_neg h]
      exact ⟨c, coalesce_go e es, rfl, rfl⟩

theorem coalesce_go_chain (es : List Entry) :
    ∀ c : Entry,
      List.Chain' (fun a b => a.project ≠ b.project) (coalesce_go c es) := by
  induction es with
  | nil => intro c; exact List.chain'_singleton c
  | cons e es ih =>
    intro c
    rw [coalesce_go]
    by_cases h : e.project = c.project
    · rw [if_pos h]
      exact ih (mergeEntry c e)
    · rw [if_neg h]
      rw [List.chain'_cons']
      refine ⟨?_, ih e⟩
      intro y hy
      obtain ⟨b, l, hb, hp⟩ := coalesce_go_head es e
      rw [hb] at hy
      simp only [List.head?_cons, Option.mem_def, Option.some.injEq] at hy
      rw [← hy, hp]
      exact fun hc => h hc.symm

theorem coalesce_go_fixed (es : List Entry) :
    ∀ c : Entry,
      List.Chain' (fun a b => a.project ≠ b.project) (c :: es) →
      coalesce_go c es = c :: es := by
  induction es with
  | nil => intro c _; rfl
  | cons e es ih =>
    intro c hchain
    rw [List.chain'_cons] at hchain
    rw [coalesce_go, if_neg (fun hh => hchain.1 hh.symm), ih e hchain.2]

theorem coalesce_go_map_project (es : List Entry) :
    ∀ c : Entry,
      (coalesce_go c es).map (fun b => b.project)
        = List.destutter' (fun a b => a ≠ b) c.project
            (es.map (fun x => x.project)) := by
  induction es with
  | nil => intro c; rfl
  | cons e es ih =>
    intro c
    rw [coalesce_go, List.map_cons, List.destutter'_cons]
    by_cases h : e.project = c.project
    · rw [if_pos h, if_neg (fun hne => hne h.symm)]
      exact ih (mergeEntry c e)
    · rw [if_neg h, if_pos (fun heq => h heq.symm), List.map_cons, ih e]

/-! ## Claim theorems -/

/-- C1: `coalesce_consecutive` returns `[]` on empty input; otherwise it
seeds a current block from the first entry and, for each subsequent entry,
extends the block when the projects match (`end` replaced, durations added,
descriptions merged via `merge_descriptions`) and otherwise emits the block
and restarts; the final block is always emitted, blocks appear in input
order with one block per maximal run of a project (so same-project entries
separated by a different project are never merged), and the three-entry
example of the spec yields exactly the two expected blocks. -/
theorem coalesce_consecutive_spec (cur e : Entry) (rest entries : List Entry) :
    coalesce_consecutive ([] : List Entry) = [] ∧
    coalesce_consecutive (cur :: e :: rest)
      = (if e.project = cur.project then
          coalesce_consecutive (mergeEntry cur e :: rest)
        else cur :: coalesce_consecutive (e :: rest)) ∧
    (coalesce_consecutive entries).map (fun b => b.project)
      = (entries.map (fun x => x.project)).destutter (fun a b => a ≠ b) ∧
    coalesce_consecutive [entryA1, entryA2, entryB] = [blockA, entryB] := by
  refine ⟨rfl, ?_, ?_, ?_⟩
  · rw [coalesce_consecutive, coalesce_go]
    by_cases h : e.project = cur.project
    · rw [if_pos h, if_pos h, coalesce_consecutive]
    · rw [if_neg h, if_neg h, coalesce_consecutive]
  · cases entries with
    | nil => rfl
    | cons x xs =>
      rw [coalesce_consecutive, List.map_cons, List.destutter_cons']
      exact coalesce_go_map_project xs x
  · decide

/-- C2: `merge_descriptions` returns the new description when the current
one is empty and the new one is not; appends `"; "` and the new description
when the new one is non-empty and not a substring of the current one; and
returns the current description unchanged in every other case (new empty, or
new contained anywhere in current as a substring). -/
theorem merge_descriptions_spec (current_desc new_desc : String) :
    (current_desc = "" → new_desc ≠ "" →
      merge_descriptions current_desc new_desc = new_desc) ∧
    (current_desc ≠ "" → new_desc ≠ "" → pyIn new_desc current_desc = false →
      merge_descriptions current_desc new_desc
        = current_desc ++ "; " ++ new_desc) ∧
    (new_desc = "" ∨ pyIn new_desc current_desc = true →
      merge_descriptions current_desc new_desc = current_desc) := by
  refine ⟨?_, ?_, ?_⟩
  · intro hc hn
    rw [merge_descriptions, if_pos ⟨hc, hn⟩]
  · intro hc hn hin
    rw [merge_descriptions, if_neg (fun hh => hc hh.1), if_pos ⟨hn, hin⟩]
  · rintro (h | h)
    · rw [merge_descriptions, if_neg (fun hh => hh.2 h),
        if_neg (fun hh => hh.1 h)]
    · have hcur : ¬(current_desc = "" ∧ new_desc ≠ "") := by
        rintro ⟨hc, hn⟩
        subst hc
        have hdata : new_desc.data = [] := by
          have : listHasSub new_desc.data [] = true := h
          rw [listHasSub] at this
          exact List.isEmpty_iff.mp this
        exact hn ((str_empty_iff new_desc).mpr hdata)
      rw [merge_descriptions, if_neg hcur,
        if_neg (fun hh => by rw [h] at hh; exact absurd hh.2 (by simp))]

/-- Witness for C2 at the containment example of the spec: merging
"task2" into "task1; task2" leaves the current description unchanged. -/
theorem merge_descriptions_spec_witness :
    pyIn "task2" "task1; task2" = true ∧
    merge_descriptions "task1; task2" "task2" = "task1; task2" :=
  ⟨by decide,
    (merge_descriptions_spec "task1; task2" "task2").2.2 (Or.inr (by decide))⟩

/-- C9: coalescing an already-fully-coalesced list (no two adjacent entries
share a project) returns an equal list, and `coalesce_consecutive` composed
with itself equals `coalesce_consecutive`. -/
theorem coalesce_consecutive_idem (entries : List Entry) :
    (List.Chain' (fun a b => a.project ≠ b.project) entries →
      coalesce_consecutive entries = entries) ∧
    coalesce_consecutive (coalesce_consecutive entries)
      = coalesce_consecutive entries := by
  constructor
  · intro h
    cases entries with
    | nil => rfl
    | cons e es =>
      rw [coalesce_consecutive]
      exact coalesce_go_fixed es e h
  · cases entries with
    | nil => rfl
    | cons e es =>
      rw [coalesce_consecutive]
      obtain ⟨b, l, hb, _⟩ := coalesce_go_head es e
      have hc := coalesce_go_chain es e
      rw [hb] at hc ⊢
      rw [coalesce_consecutive]
      exact coalesce_go_fixed l b hc

/-- Witness for C9: a two-entry list with distinct adjacent projects is left
unchanged by coalescing. -/
theorem coalesce_consecutive_idem_witness :
    List.Chain' (fun a b : Entry => a.project ≠ b.project) [entryA1, entryB] ∧
    coalesce_consecutive [entryA1, entryB] = [entryA1, entryB] := by
  have hch : List.Chain' (fun a b : Entry => a.project ≠ b.project)
      [entryA1, entryB] :=
    List.chain'_cons.mpr ⟨by decide, List.chain'_singleton _⟩
  exact ⟨hch, (coalesce_consecutive_idem [entryA1, entryB]).1 hch⟩

/-- C10: coalescing neither loses nor double-counts tracked time: the
durations of the produced work blocks sum to the durations of the input
entries. -/
theorem coalesce_consecutive_sum (entries : List Entry) :
    sum_durations (coalesce_consecutive entries) = sum_durations entries := by
  cases entries with
  | nil => rfl
  | cons e es =>
    rw [coalesce_consecutive, coalesce_go_sum, sum_durations_cons]

/-- Counterexample to C3: the spec says parsing fails on anything that is not
three colon-separated non-negative integers, but a negative component is
accepted: "0:0:-1" is rejected by the claimed format yet parses to minus one
second, because Python `int` accepts a leading sign.  Every character of
"0:0:-1" satisfies `plainChar`, so on this input the embedded parser agrees
with the builtin exactly. -/
theorem parse_duration_neg_component :
    specNonNegTriple "0:0:-1" = false ∧ parse_duration "0:0:-1" = some (-1) :=
  ⟨by decide, by decide⟩

/-- C3 (amended): `parse_duration` performs no range or sign validation —
any three colon-separated integers, including negative ones, are converted
arithmetically as `h*3600 + m*60 + s` — and, restricted to inputs made of
printable non-space ASCII characters other than underscore (the domain on
which the embedded integer parser coincides with Python `int`), it fails
exactly when the input is not three colon-separated optionally signed digit
strings.  Inputs using the builtin's remaining liberties (surrounding
whitespace, digit-group underscores, non-ASCII decimal digits) lie outside
this characterization. -/
theorem parse_duration_spec (s : String)
    (_hplain : s.data.all plainChar = true) :
    (parse_duration s = none ↔
      ∀ h m sec : Int,
        (splitOnColon s.data).map parseInt? ≠ [some h, some m, some sec]) ∧
    (∀ h m sec : Int,
      (splitOnColon s.data).map parseInt? = [some h, some m, some sec] →
      parse_duration s = some (h * 3600 + m * 60 + sec)) := by
  constructor
  · constructor
    · intro hnone h m sec heq
      unfold parse_duration at hnone
      rw [heq] at hnone
      simp at hnone
    · intro hall
      unfold parse_duration
      split
      · next h m sec heq => exact absurd heq (hall h m sec)
      · rfl
  · intro h m sec heq
    unfold parse_duration
    rw [heq]

/-- Witness for C3 at the spec's own boundary example "1:75:99": minutes and
seconds out of range are accepted and converted arithmetically. -/
theorem parse_duration_spec_witness :
    ("1:75:99").data.all plainChar = true ∧
    (splitOnColon ("1:75:99").data).map parseInt?
      = [some 1, some 75, some 99] ∧
    parse_duration "1:75:99" = some (1 * 3600 + 75 * 60 + 99) :=
  ⟨by decide, by decide,
    (parse_duration_spec "1:75:99" (by decide)).2 1 75 99 (by decide)⟩

/-- C5: `calculate_percentage` returns `part / total * 100` exactly, and
fails (raises `ZeroDivisionError`, modelled as `none`) exactly when the total
is zero. -/
theorem calculate_percentage_spec (part total : Nat) :
    (total = 0 → calculate_percentage part total = none) ∧
    (total ≠ 0 →
      calculate_percentage part total
        = some ((part : ℚ) / (total : ℚ) * 100)) := by
  constructor
  · intro h
    rw [calculate_percentage, if_pos h]
  · intro h
    rw [calculate_percentage, if_neg h]

/-- Witness for C5: one hour out of four hours is a defined percentage. -/
theorem calculate_percentage_spec_witness :
    (14400 ≠ 0) ∧
    calculate_percentage 3600 14400 = some ((3600 : ℚ) / (14400 : ℚ) * 100) :=
  ⟨by decide, (calculate_percentage_spec 3600 14400).2 (by decide)⟩

/-- C6: `fmt_dur` prints "{h}h {m}m" when the whole-hour count is positive
and "{m}m" otherwise, so the hour term is omitted exactly when the duration
has zero whole hours and the minute term is always present; the minute count
is the floor of the leftover seconds divided by sixty (seconds are discarded,
never rounded up). -/
theorem fmt_dur_spec (d : Nat) :
    (0 < d / 3600 →
      fmt_dur d
        = toString (d / 3600) ++ "h " ++ toString (d % 3600 / 60) ++ "m") ∧
    (d / 3600 = 0 → fmt_dur d = toString (d % 3600 / 60) ++ "m") ∧
    (d % 3600 / 60) * 60 ≤ d % 3600 ∧
    d % 3600 < ((d % 3600 / 60) + 1) * 60 := by
  refine ⟨?_, ?_, ?_, ?_⟩
  · intro h
    simp only [fmt_dur]
    rw [if_pos (Nat.pos_iff_ne_zero.mp h)]
  · intro h
    simp only [fmt_dur]
    rw [if_neg (fun hh => hh h)]
  · omega
  · omega

/-- Witness for C6 at 3725 seconds (one hour, two minutes, five seconds). -/
theorem fmt_dur_spec_witness :
    0 < 3725 / 3600 ∧
    fmt_dur 3725
      = toString (3725 / 3600) ++ "h " ++ toString (3725 % 3600 / 60) ++ "m" :=
  ⟨by decide, (fmt_dur_spec 3725).1 (by decide)⟩

/-- C8: `average_per_day` returns the total divided by the number of distinct
date values among the entries, and returns the zero duration for an empty
entry list, never dividing by zero. -/
theorem average_per_day_spec (total : ℚ) (entries : List Entry) :
    (entries = [] → average_per_day total entries = 0) ∧
    (entries ≠ [] →
      (entries.map (fun e => e.date)).toFinset.card ≠ 0 ∧
      average_per_day total entries
        = total / ((entries.map (fun e => e.date)).toFinset.card : ℚ)) := by
  constructor
  · intro h
    subst h
    rfl
  · intro h
    have hcard : (entries.map (fun e => e.date)).toFinset.card
        = ((entries.map (fun e => e.date)).dedup).length :=
      List.card_toFinset _
    have hne : ((entries.map (fun e => e.date)).dedup) ≠ [] := by
      cases entries with
      | nil => exact absurd rfl h
      | cons e es =>
        intro hnil
        have : e.date ∈ (List.map (fun e => e.date) (e :: es)).dedup := by
          rw [List.mem_dedup]
          exact List.mem_map_of_mem _ (List.mem_cons_self e es)
        rw [hnil] at this
        simp at this
    have hpos : 0 < ((entries.map (fun e => e.date)).dedup).length :=
      List.length_pos_of_ne_nil hne
    constructor
    · rw [hcard]
      omega
    · simp only [average_per_day]
      rw [if_pos hpos, hcard]

/-- Witness for C8: two entries sharing one date average over a single
day. -/
theorem average_per_day_spec_witness :
    ([entryA1, entryA2] ≠ []) ∧
    ((List.map (fun e => e.date) [entryA1, entryA2]).toFinset.card ≠ 0 ∧
      average_per_day 90 [entryA1, entryA2]
        = 90 / (((List.map (fun e => e.date) [entryA1, entryA2]).toFinset.card
            : ℚ))) :=
  ⟨by simp, (average_per_day_spec 90 [entryA1, entryA2]).2 (by simp)⟩

theorem toStringM_ne : ∀ m : Nat, m < 60 → m ≠ 0 → toString m ++ "m" ≠ "0m" := by
  decide

theorem append_last_ne (xs : List Char) (a : Char) (ha : a ≠ 'm') :
    xs ++ [a] ≠ ['0', 'm'] := by
  intro h
  rcases xs with _ | ⟨x, _ | ⟨y, t⟩⟩
  · simp at h
  · simp only [List.cons_append, List.nil_append, List.cons.injEq] at h
    exact ha h.2.1
  · have := congrArg List.length h
    simp at this

theorem comp_d_ne (s : String) : s ++ "d" ≠ "0m" := by
  intro h
  have hd := congrArg String.data h
  rw [String.data_append] at hd
  exact append_last_ne s.data 'd' (by decide) hd

theorem comp_h_ne (s : String) : s ++ "h" ≠ "0m" := by
  intro h
  have hd := congrArg String.data h
  rw [String.data_append] at hd
  exact append_last_ne s.data 'h' (by decide) hd

theorem long_ne_0m (s : String) (h : 2 < s.data.length) : s ≠ "0m" := by
  intro he
  rw [he] at h
  exact absurd h (by decide)

theorem fmt_dur_long_spec (t : Nat) :
    (fmt_dur_long t = "0m" ↔
      t / 86400 = 0 ∧ t % 86400 / 3600 = 0 ∧ t % 86400 % 3600 / 60 = 0) ∧
    ((t / 86400 = 0 ∧ t % 86400 / 3600 = 0 ∧ t % 86400 % 3600 / 60 = 0) ↔
      t < 60) ∧
    (¬(t / 86400 = 0 ∧ t % 86400 / 3600 = 0 ∧ t % 86400 % 3600 / 60 = 0) →
      fmt_dur_long t = joinSpace
        (([(t / 86400, "d"), (t % 86400 / 3600, "h"),
           (t % 86400 % 3600 / 60, "m")].filter
            (fun p => decide (p.1 ≠ 0))).map (fun p => toString p.1 ++ p.2))) := by
  refine ⟨?_, by omega, ?_⟩
  · by_cases hd : t / 86400 = 0 <;> by_cases hh : t % 86400 / 3600 = 0 <;>
      by_cases hm : t % 86400 % 3600 / 60 = 0
    · exact iff_of_true (by simp [fmt_dur_long, List.filter, hd, hh, hm])
        ⟨hd, hh, hm⟩
    · refine iff_of_false ?_ (by omega)
      simp [fmt_dur_long, List.filter, hd, hh, hm, joinSpace]
      exact toStringM_ne _ (by omega) hm
    · refine iff_of_false ?_ (by omega)
      simp [fmt_dur_long, List.filter, hd, hh, hm, joinSpace]
      exact comp_h_ne _
    · refine iff_of_false ?_ (by omega)
      simp [fmt_dur_long, List.filter, hd, hh, hm, joinSpace]
      apply long_ne_0m
      simp
      omega
    · refine iff_of_false ?_ (by omega)
      simp [fmt_dur_long, List.filter, hd, hh, hm, joinSpace]
      exact comp_d_ne _
    · refine iff_of_false ?_ (by omega)
      simp [fmt_dur_long, List.filter, hd, hh, hm, joinSpace]
      apply long_ne_0m
      simp
      omega
    · refine iff_of_false ?_ (by omega)
      simp [fmt_dur_long, List.filter, hd, hh, hm, joinSpace]
      apply long_ne_0m
      simp
      omega
    · refine iff_of_false ?_ (by omega)
      simp [fmt_dur_long, List.filter, hd, hh, hm, joinSpace]
      apply long_ne_0m
      simp
      omega
  · intro hne
    by_cases hd : t / 86400 = 0 <;> by_cases hh : t % 86400 / 3600 = 0 <;>
      by_cases hm : t % 86400 % 3600 / 60 = 0
    · exact absurd ⟨hd, hh, hm⟩ hne
    all_goals simp [fmt_dur_long, List.filter, hd, hh, hm, joinSpace]

theorem fmt_dur_long_spec_witness :
    ¬(3661 / 86400 = 0 ∧ 3661 % 86400 / 3600 = 0 ∧
        3661 % 86400 % 3600 / 60 = 0) ∧
    fmt_dur_long 3661 = joinSpace
      (([(3661 / 86400, "d"), (3661 % 86400 / 3600, "h"),
         (3661 % 86400 % 3600 / 60, "m")].filter
          (fun p => decide (p.1 ≠ 0))).map (fun p => toString p.1 ++ p.2)) :=
  ⟨by decide, (fmt_dur_long_spec 3661).2.2 (by decide)⟩

/-! ## C4 machinery: key order, stability, per-project totals -/

theorem bumpKey_keys (p : String) (d : Nat) :
    ∀ acc : List (String × Nat),
      (bumpKey acc p d).map Prod.fst
        = if p ∈ acc.map Prod.fst then acc.map Prod.fst
          else acc.map Prod.fst ++ [p] := by
  intro acc
  induction acc with
  | nil => simp [bumpKey]
  | cons qt rest ih =>
    obtain ⟨q, t⟩ := qt
    rw [bumpKey]
    by_cases h : q = p
    · subst h
      rw [if_pos rfl]
      simp
    · rw [if_neg h]
      simp only [List.map_cons]
      rw [ih]
      by_cases hmem : p ∈ rest.map Prod.fst
      · rw [if_pos hmem, if_pos (List.mem_cons_of_mem _ hmem)]
      · rw [if_neg hmem, if_neg ?drop]
        · simp
        case drop =>
          intro hc
          rcases List.mem_cons.mp hc with hc | hc
          · exact h hc.symm
          · exact hmem hc


theorem firstOcc_congr :
    ∀ (l s1 s2 : List String), (∀ x, x ∈ s1 ↔ x ∈ s2) →
      firstOcc s1 l = firstOcc s2 l := by
  intro l
  induction l with
  | nil => intro s1 s2 _; rfl
  | cons p ps ih =>
    intro s1 s2 h
    rw [firstOcc, firstOcc]
    by_cases hp : p ∈ s1
    · rw [if_pos hp, if_pos ((h p).mp hp), ih s1 s2 h]
    · rw [if_neg hp, if_neg (fun hq => hp ((h p).mpr hq)),
        ih (p :: s1) (p :: s2) (by intro x; simp [h x])]

theorem mem_firstOcc :
    ∀ (l seen : List String) (x : String), x ∈ firstOcc seen l → x ∉ seen := by
  intro l
  induction l with
  | nil => intro seen x hx; simp [firstOcc] at hx
  | cons p ps ih =>
    intro seen x hx
    rw [firstOcc] at hx
    by_cases hp : p ∈ seen
    · rw [if_pos hp] at hx
      exact ih seen x hx
    · rw [if_neg hp] at hx
      rcases List.mem_cons.mp hx with h | h
      · subst h; exact hp
      · exact fun hs => ih (p :: seen) x h (List.mem_cons_of_mem p hs)

theorem firstOcc_nodup :
    ∀ (l seen : List String), (firstOcc seen l).Nodup := by
  intro l
  induction l with
  | nil => intro seen; exact List.nodup_nil
  | cons p ps ih =>
    intro seen
    rw [firstOcc]
    by_cases hp : p ∈ seen
    · rw [if_pos hp]; exact ih seen
    · rw [if_neg hp]
      refine List.nodup_cons.mpr ⟨?_, ih (p :: seen)⟩
      intro hc
      exact mem_firstOcc ps (p :: seen) p hc (List.mem_cons_self p seen)

theorem group_keys_aux :
    ∀ (es : List Entry) (acc : List (String × Nat)),
      ((es.foldl (fun a e => bumpKey a e.project e.duration) acc).map Prod.fst)
        = acc.map Prod.fst
            ++ firstOcc (acc.map Prod.fst) (es.map (fun e => e.project)) := by
  intro es
  induction es with
  | nil => intro acc; simp [firstOcc]
  | cons e es ih =>
    intro acc
    rw [List.foldl_cons, ih, List.map_cons, firstOcc, bumpKey_keys]
    by_cases h : e.project ∈ acc.map Prod.fst
    · rw [if_pos h, if_pos h]
    · rw [if_neg h, if_neg h,
        firstOcc_congr (es.map (fun e => e.project))
          (acc.map Prod.fst ++ [e.project]) (e.project :: acc.map Prod.fst)
          (by intro x; simp [or_comm])]
      simp


theorem sIdx_cons_ne (a p : String) (l : List String) (h : p ≠ a) :
    sIdx (a :: l) p = sIdx l p + 1 := by
  rw [sIdx, sIdx, List.findIdx_cons]
  rw [beq_eq_false_iff_ne.mpr (Ne.symm h)]
  rfl

theorem firstOcc_pairwise :
    ∀ (l seen : List String),
      (firstOcc seen l).Pairwise (fun p q => sIdx l p < sIdx l q) := by
  intro l
  induction l with
  | nil => intro seen; exact List.Pairwise.nil
  | cons a l ih =>
    intro seen
    rw [firstOcc]
    by_cases ha : a ∈ seen
    · rw [if_pos ha]
      refine List.Pairwise.imp_of_mem ?_ (ih seen)
      intro p q hp hq hlt
      have hpa : p ≠ a := fun h => mem_firstOcc l seen p hp (h ▸ ha)
      have hqa : q ≠ a := fun h => mem_firstOcc l seen q hq (h ▸ ha)
      rw [sIdx_cons_ne a p l hpa, sIdx_cons_ne a q l hqa]
      omega
    · rw [if_neg ha]
      rw [List.pairwise_cons]
      constructor
      · intro q hq
        have hqa : q ≠ a := fun h =>
          mem_firstOcc l (a :: seen) q hq (h ▸ List.mem_cons_self a seen)
        rw [sIdx_cons_ne a q l hqa]
        have : sIdx (a :: l) a = 0 := by
          rw [sIdx, List.findIdx_cons, beq_self_eq_true]
          rfl
        omega
      · refine List.Pairwise.imp_of_mem ?_ (ih (a :: seen))
        intro p q hp hq hlt
        have hpa : p ≠ a := fun h =>
          mem_firstOcc l (a :: seen) p hp (h ▸ List.mem_cons_self a seen)
        have hqa : q ≠ a := fun h =>
          mem_firstOcc l (a :: seen) q hq (h ▸ List.mem_cons_self a seen)
        rw [sIdx_cons_ne a p l hpa, sIdx_cons_ne a q l hqa]
        omega

theorem findIdx_map_proj (es : List Entry) (p : String) :
    (es.map (fun e => e.project)).findIdx (fun q => q == p)
      = es.findIdx (fun e => e.project == p) := by
  induction es with
  | nil => rfl
  | cons e es ih =>
    rw [List.map_cons, List.findIdx_cons, List.findIdx_cons, ih]

theorem group_by_project_pairwise (entries : List Entry) :
    (group_by_project entries).Pairwise (fun a b =>
      entries.findIdx (fun e => e.project == a.1)
        < entries.findIdx (fun e => e.project == b.1)) := by
  have hkeys : (group_by_project entries).map Prod.fst
      = firstOcc [] (entries.map (fun e => e.project)) := by
    have h := group_keys_aux entries []
    simpa using h
  have hpw := firstOcc_pairwise (entries.map (fun e => e.project)) []
  rw [← hkeys, List.pairwise_map] at hpw
  refine hpw.imp ?_
  intro a b h
  rwa [sIdx, sIdx, findIdx_map_proj, findIdx_map_proj] at h

theorem insertRanked_perm (x : String × Nat) :
    ∀ l : List (String × Nat), (insertRanked x l).Perm (x :: l) := by
  intro l
  induction l with
  | nil => exact List.Perm.refl _
  | cons y ys ih =>
    rw [insertRanked]
    by_cases h : y.2 ≤ x.2
    · rw [if_pos h]
    · rw [if_neg h]
      exact (ih.cons y).trans (List.Perm.swap x y ys)

theorem rankStats_perm : ∀ l : List (String × Nat), (rankStats l).Perm l := by
  intro l
  induction l with
  | nil => exact List.Perm.refl _
  | cons x l ih =>
    show (insertRanked x (rankStats l)).Perm (x :: l)
    exact (insertRanked_perm x (rankStats l)).trans (ih.cons x)

theorem insertRanked_pairwise {Q : String × Nat → String × Nat → Prop}
    (x : String × Nat) :
    ∀ l : List (String × Nat),
      l.Pairwise (fun a b => b.2 ≤ a.2 ∧ (a.2 = b.2 → Q a b)) →
      (∀ y ∈ l, Q x y) →
      (insertRanked x l).Pairwise
        (fun a b => b.2 ≤ a.2 ∧ (a.2 = b.2 → Q a b)) := by
  intro l
  induction l with
  | nil => intro _ _; exact List.pairwise_singleton _ x
  | cons y ys ih =>
    intro hl hx
    have hl' := List.pairwise_cons.mp hl
    rw [insertRanked]
    by_cases h : y.2 ≤ x.2
    · rw [if_pos h]
      refine List.pairwise_cons.mpr ⟨?_, hl⟩
      intro z hz
      rcases List.mem_cons.mp hz with hz | hz
      · subst hz
        exact ⟨h, fun _ => hx z (List.mem_cons_self z ys)⟩
      · exact ⟨le_trans (hl'.1 z hz).1 h,
          fun _ => hx z (List.mem_cons_of_mem y hz)⟩
    · rw [if_neg h]
      have hxy : x.2 < y.2 := Nat.lt_of_not_le h
      refine List.pairwise_cons.mpr
        ⟨?_, ih hl'.2 (fun z hz => hx z (List.mem_cons_of_mem y hz))⟩
      intro z hz
      have hz' := (insertRanked_perm x ys).mem_iff.mp hz
      rcases List.mem_cons.mp hz' with hz' | hz'
      · subst hz'
        exact ⟨Nat.le_of_lt hxy, fun heq => absurd heq (by omega)⟩
      · exact hl'.1 z hz'

theorem rankStats_pairwise {Q : String × Nat → String × Nat → Prop} :
    ∀ l : List (String × Nat), l.Pairwise Q →
      (rankStats l).Pairwise
        (fun a b => b.2 ≤ a.2 ∧ (a.2 = b.2 → Q a b)) := by
  intro l
  induction l with
  | nil => intro _; exact List.Pairwise.nil
  | cons x l ih =>
    intro hl
    have hl' := List.pairwise_cons.mp hl
    show (insertRanked x (rankStats l)).Pairwise _
    refine insertRanked_pairwise x (rankStats l) (ih hl'.2) ?_
    intro y hy
    exact hl'.1 y ((rankStats_perm l).mem_iff.mp hy)


theorem lookupVal_bumpKey (p r : String) (d : Nat) :
    ∀ acc : List (String × Nat),
      lookupVal (bumpKey acc p d) r
        = if r = p then some ((lookupVal acc p).getD 0 + d)
          else lookupVal acc r := by
  intro acc
  induction acc with
  | nil =>
    rw [bumpKey]
    by_cases hr : r = p
    · subst hr
      simp [lookupVal]
    · have hpr : ¬p = r := fun h => hr h.symm
      simp [lookupVal, hr, hpr]
  | cons qt rest ih =>
    obtain ⟨q, t⟩ := qt
    rw [bumpKey]
    by_cases hq : q = p
    · rw [if_pos hq]
      subst hq
      by_cases hr : r = q
      · subst hr
        simp [lookupVal]
      · have hqr : ¬q = r := fun h => hr h.symm
        simp [lookupVal, hr, hqr]
    · rw [if_neg hq]
      by_cases hqr : q = r
      · have hrp : ¬r = p := fun h => hq (hqr.trans h)
        simp [lookupVal, hq, hqr, hrp]
      · simp [lookupVal, hq, hqr, ih]


theorem projSum_cons (p : String) (e : Entry) (es : List Entry) :
    projSum p (e :: es)
      = if e.project = p then e.duration + projSum p es
        else projSum p es := by
  rw [projSum, List.filter_cons]
  by_cases h : e.project = p
  · rw [if_pos (by simp [h]), if_pos h, projSum, sum_durations_cons]
  · rw [if_neg (by simp [h]), if_neg h, projSum]

theorem projSum_zero (p : String) :
    ∀ es : List Entry, p ∉ es.map (fun e => e.project) → projSum p es = 0 := by
  intro es
  induction es with
  | nil => intro _; rfl
  | cons e es ih =>
    intro h
    rw [List.map_cons] at h
    rw [projSum_cons,
      if_neg (fun hc => h (List.mem_cons.mpr (Or.inl hc.symm)))]
    exact ih (fun hc => h (List.mem_cons_of_mem _ hc))

theorem lookupVal_group_aux :
    ∀ (es : List Entry) (acc : List (String × Nat)) (r : String),
      lookupVal (es.foldl (fun a e => bumpKey a e.project e.duration) acc) r
        = if r ∈ es.map (fun e => e.project)
          then some ((lookupVal acc r).getD 0 + projSum r es)
          else lookupVal acc r := by
  intro es
  induction es with
  | nil =>
    intro acc r
    simp [projSum]
  | cons e es ih =>
    intro acc r
    rw [List.foldl_cons, ih, List.map_cons, lookupVal_bumpKey, projSum_cons]
    by_cases hr : r = e.project
    · subst hr
      by_cases hmem : e.project ∈ es.map (fun x => x.project)
      · simp [hmem, Nat.add_assoc]
      · rw [projSum_zero e.project es hmem]
        simp [hmem]
    · have hr2 : ¬e.project = r := fun h => hr h.symm
      by_cases hmem : r ∈ es.map (fun x => x.project)
      · simp only [if_neg hr, if_neg hr2, if_pos hmem,
          if_pos (List.mem_cons_of_mem _ hmem)]
      · simp only [if_neg hr, if_neg hr2, if_neg hmem]
        rw [if_neg (fun hc => by
          rcases List.mem_cons.mp hc with h | h
          · exact hr h
          · exact hmem h)]

theorem mem_iff_lookupVal :
    ∀ l : List (String × Nat), (l.map Prod.fst).Nodup →
      ∀ (p : String) (d : Nat), ((p, d) ∈ l ↔ lookupVal l p = some d) := by
  intro l
  induction l with
  | nil => intro _ p d; simp [lookupVal]
  | cons qt rest ih =>
    obtain ⟨q, t⟩ := qt
    intro hnd p d
    rw [List.map_cons, List.nodup_cons] at hnd
    rw [lookupVal]
    by_cases hq : q = p
    · subst hq
      rw [if_pos rfl]
      constructor
      · intro hmem
        rcases List.mem_cons.mp hmem with h | h
        · rw [Prod.mk.injEq] at h
          rw [h.2]
        · exact absurd (List.mem_map_of_mem Prod.fst h) hnd.1
      · intro hl
        injection hl with h
        rw [← h]
        exact List.mem_cons_self _ _
    · rw [if_neg hq]
      constructor
      · intro hmem
        rcases List.mem_cons.mp hmem with h | h
        · exact absurd (congrArg Prod.fst h).symm hq
        · exact (ih hnd.2 p d).mp h
      · intro hl
        exact List.mem_cons_of_mem _ ((ih hnd.2 p d).mpr hl)

theorem group_keys_nodup (entries : List Entry) :
    ((group_by_project entries).map Prod.fst).Nodup := by
  have hkeys : (group_by_project entries).map Prod.fst
      = firstOcc [] (entries.map (fun e => e.project)) := by
    simpa using group_keys_aux entries []
  rw [hkeys]
  exact firstOcc_nodup _ []

theorem mem_group_iff (entries : List Entry) (p : String) (d : Nat) :
    ((p, d) ∈ group_by_project entries ↔
      (p ∈ entries.map (fun e => e.project) ∧ d = projSum p entries)) := by
  rw [mem_iff_lookupVal (group_by_project entries) (group_keys_nodup entries)
    p d]
  rw [group_by_project, lookupVal_group_aux entries [] p]
  by_cases h : p ∈ entries.map (fun e => e.project)
  · rw [if_pos h]
    simp only [lookupVal, Option.getD_none, Nat.zero_add, Option.some.injEq]
    constructor
    · intro he
      exact ⟨h, he.symm⟩
    · intro he
      exact he.2.symm
  · rw [if_neg h]
    simp only [lookupVal]
    constructor
    · intro he
      cases he
    · intro he
      exact absurd he.1 h

/-- C4: `compute_stats` returns the total of all durations together with the
per-project `(project, duration)` pairs: the pair list is a permutation of
the grouped per-project totals, a pair for project `p` is present exactly
when `p` occurs in the entries and then carries the sum of the durations of
the entries of `p`, the list is sorted by duration descending, and pairs with
equal durations appear in the order in which their project was first
encountered while iterating the entries. -/
theorem compute_stats_spec (entries : List Entry) :
    (compute_stats entries).1 = sum_durations entries ∧
    ((compute_stats entries).2).Perm (group_by_project entries) ∧
    (∀ (p : String) (d : Nat),
      ((p, d) ∈ (compute_stats entries).2 ↔
        (p ∈ entries.map (fun e => e.project) ∧
          d = sum_durations (entries.filter (fun e => e.project == p))))) ∧
    ((compute_stats entries).2).Pairwise (fun a b =>
      b.2 ≤ a.2 ∧ (a.2 = b.2 →
        entries.findIdx (fun e => e.project == a.1)
          < entries.findIdx (fun e => e.project == b.1))) := by
  refine ⟨rfl, rankStats_perm _, ?_, ?_⟩
  · intro p d
    rw [show (compute_stats entries).2
        = rankStats (group_by_project entries) from rfl]
    rw [(rankStats_perm (group_by_project entries)).mem_iff]
    exact mem_group_iff entries p d
  · exact rankStats_pairwise _ (group_by_project_pairwise entries)

/-- Witness for C4 at the three-entry example list. -/
theorem compute_stats_spec_witness :
    ((compute_stats [entryA1, entryA2, entryB]).2).Pairwise (fun a b =>
      b.2 ≤ a.2 ∧ (a.2 = b.2 →
        ([entryA1, entryA2, entryB] : List Entry).findIdx
            (fun e => e.project == a.1)
          < ([entryA1, entryA2, entryB] : List Entry).findIdx
            (fun e => e.project == b.1))) :=
  (compute_stats_spec [entryA1, entryA2, entryB]).2.2.2
